import Mathlib

/-!
Shallow embedding of the gowe word-embedding library (vector algebra,
quantization codec, embedding stores, similarity ranking) and proofs about
its specification.

Modelling conventions:
- Go floating-point scalars are modelled as exact rationals (`ℚ`); every
  concrete input exercised below is exactly representable in `float32` and
  `float64` and all the operations applied to it are exact in both the Go
  code and the model.
- Go signed integers of width `w` are modelled as `ℤ` with explicit
  two's-complement wraparound (`wrapInt w`) where the code narrows.
- A Go `float64` result of the form `num / math.Sqrt(rad)` is carried around
  as the exact pair `(num, rad) : ℚ × ℚ` and denoted into `ℝ` by `partsVal`;
  this keeps the embedding executable while the square root appears only in
  theorem statements.
- Go's arithmetic right shift `e >> s` on a two's-complement signed integer
  equals floor division by `2^s`, modelled by `Int.fdiv e (2^s)`.
- Go maps are modelled as association lists where insertion conses and
  lookup takes the first (most recent) binding.
-/

namespace Gowe

/-- Go conversion of a floating value to a signed integer discards the
fractional part (truncation toward zero). On an exact rational this is
T-division of the numerator by the denominator. -/
def ratTrunc (q : ℚ) : ℤ := q.num.tdiv (q.den : ℤ)

/-- Two's-complement wraparound of an unbounded integer into the signed
`w`-bit range `[-2^(w-1), 2^(w-1))`. -/
def wrapInt (w : ℕ) (z : ℤ) : ℤ := (z + 2 ^ (w - 1)) % (2 ^ w) - 2 ^ (w - 1)

/-- `IntVector[I]` from `vectors.go`: quantized scalars plus the number of
fractional bits (`shift`, a `uint8` in the source). The scalar width `w`
is passed explicitly to the operations that narrow. -/
structure IntVec where
  scalars : List ℤ
  shift : ℕ
  deriving DecidableEq, Repr

/-- `QuantizeFloatVector` (`vectors.go` lines 201-213): multiply each element
by `scale = 2^shift` and convert to the signed integer width `w` (truncation
toward zero, then width-native wraparound for out-of-range products). The
stored shift is the argument. -/
def quantizeFloatVector (w : ℕ) (v : List ℚ) (shift : ℕ) : IntVec :=
  { scalars := v.map fun x => wrapInt w (ratTrunc (x * 2 ^ shift))
    shift := shift }

/-- Go's arithmetic right shift on a signed integer: floor division by a
power of two. -/
def sar (e : ℤ) (s : ℕ) : ℤ := Int.fdiv e (2 ^ s)

/-- `DequantizeIntVector` (`vectors.go` lines 215-225): each element is
`F(v.scalars[i] >> v.shift)` — the arithmetic right shift happens on the
integer before the float cast, so the cast value is an integer. -/
def dequantizeIntVector (v : IntVec) : List ℚ :=
  v.scalars.map fun e => ((sar e v.shift : ℤ) : ℚ)

/-- Fuel-based floor of `log2` on naturals (`natLog2 fuel n` is exact once
`n ≤ fuel`); structural recursion so that concrete values reduce. -/
def natLog2 : ℕ → ℕ → ℕ
  | 0, _ => 0
  | fuel + 1, n => if n ≤ 1 then 0 else natLog2 fuel (n / 2) + 1

/-- Least `k : ℕ` with `n ≤ 2 ^ k` (ceiling of `log2` on naturals). -/
def natCeilLog2 (n : ℕ) : ℕ := if n ≤ 1 then 0 else natLog2 (n - 1) (n - 1) + 1

/-- Exact `⌈log2 m⌉` of a positive rational, modelling
`math.Ceil(math.Log2(maxMagnitude))` from `QuantizationShift` (the float
computation is exact at every input exercised here). -/
def ceilLog2 (m : ℚ) : ℤ :=
  if 1 ≤ m then (natCeilLog2 ⌈m⌉₊ : ℤ) else -(natLog2 ⌊m⁻¹⌋₊ ⌊m⁻¹⌋₊ : ℤ)

/-- `QuantizationShift[I]` (`vectors.go` lines 195-199):
`uint8(w) - uint8(ceil(log2 m)) - uint8(3)` computed in `uint8` arithmetic,
i.e. reduced modulo `2^8`. The model is faithful whenever
`0 ≤ ceilLog2 m ≤ 255` (in particular for every `m ≥ 1`); outside that range
Go's float-to-`uint8` conversion is itself implementation-dependent. -/
def quantizationShift (w : ℕ) (m : ℚ) : ℕ :=
  (((w : ℤ) - ceilLog2 m - 3) % 256).toNat

/-- `IntVector.Add` (`vectors.go` lines 110-119): elementwise width-native
addition over the receiver's index range, keeping the receiver's shift.
`none` models the index-out-of-range panic raised when `u` is shorter than
the receiver `v`. -/
def IntVec.add (w : ℕ) (v u : IntVec) : Option IntVec :=
  if v.scalars.length ≤ u.scalars.length then
    some { scalars := (v.scalars.zip u.scalars).map fun p => wrapInt w (p.1 + p.2)
           shift := v.shift }
  else none

/-- `IntVector.Subtract` (`vectors.go` lines 121-130): elementwise
width-native subtraction, keeping the receiver's shift; `none` models the
panic when `u` is shorter than `v`. -/
def IntVec.sub (w : ℕ) (v u : IntVec) : Option IntVec :=
  if v.scalars.length ≤ u.scalars.length then
    some { scalars := (v.scalars.zip u.scalars).map fun p => wrapInt w (p.1 - p.2)
           shift := v.shift }
  else none

/-- The fused accumulation loop of `FloatVector.CosineSimilarity`
(`vectors.go` lines 89-97): one pass producing the dot product and both
squared magnitudes. The loop runs over the receiver's index range; under the
equal-length precondition this matches the `zip`-style recursion used here. -/
def floatCosAcc : List ℚ → List ℚ → ℚ × ℚ × ℚ
  | a :: v, b :: u =>
    let r := floatCosAcc v u
    (a * b + r.1, a * a + r.2.1, b * b + r.2.2)
  | _, _ => (0, 0, 0)

/-- The value returned by `FloatVector.CosineSimilarity` represented as the
exact pair (numerator, radicand): the float result is `num / math.Sqrt rad`. -/
def floatCosParts (v u : List ℚ) : ℚ × ℚ :=
  ((floatCosAcc v u).1, (floatCosAcc v u).2.1 * (floatCosAcc v u).2.2)

/-- The fused accumulation loop of `IntVector.CosineSimilarity`
(`vectors.go` lines 159-169): 64-bit integer accumulators for the dot
product and both squared magnitudes of the raw (shifted) scalars. -/
def intCosAcc : List ℤ → List ℤ → ℤ × ℤ × ℤ
  | a :: v, b :: u =>
    let r := intCosAcc v u
    (a * b + r.1, a * a + r.2.1, b * b + r.2.2)
  | _, _ => (0, 0, 0)

/-- The value returned by `IntVector.CosineSimilarity` as an exact
(numerator, radicand) pair; the float result is `num / math.Sqrt rad`.
The shift fields of the operands are not read anywhere. -/
def intCosParts (v u : IntVec) : ℤ × ℤ :=
  ((intCosAcc v.scalars u.scalars).1,
    (intCosAcc v.scalars u.scalars).2.1 * (intCosAcc v.scalars u.scalars).2.2)

/-- Denotation of a (numerator, radicand) pair as the real number
`num / sqrt rad` (the exact value of the Go float64 expression
`d / math.Sqrt(mV*mU)` whenever it is finite). -/
noncomputable def partsVal (p : ℚ × ℚ) : ℝ := (p.1 : ℝ) / Real.sqrt (p.2 : ℝ)

/-- IEEE-754 predicate: for finite operands with `0 ≤ rad`, the double
`num / sqrt rad` is NaN exactly when both the numerator and the radicand are
zero (`0/0`); a nonzero numerator over a zero divisor gives `±Inf` instead. -/
def divSqrtIsNaN (num rad : ℚ) : Bool := num == 0 && rad == 0

/-- The (numerator, radicand) pair that denotes the float literal `0.0`
returned by `Similarity` for absent words: `0 / sqrt 1 = 0`. -/
def zeroParts : ℚ × ℚ := (0, 1)

/-- `FloatModel[F]` (`floatmodel.go` lines 32-35): dimension plus a map from
word to float vector, modelled as an association list. -/
structure FloatModel where
  dim : ℕ
  vectors : List (String × List ℚ)

/-- `FloatModel.Similarity` (`floatmodel.go` lines 59-69): `0.0` when either
word is missing from the map (the first lookup short-circuits), otherwise the
fused cosine similarity of the stored vectors. -/
def FloatModel.similarityParts (m : FloatModel) (s t : String) : ℚ × ℚ :=
  match m.vectors.lookup s with
  | none => zeroParts
  | some v =>
    match m.vectors.lookup t with
    | none => zeroParts
    | some u => floatCosParts v u

/-- `IntModel[I]` (`intmodel.go` lines 32-35): dimension plus a map from
word to quantized vector, modelled as an association list. -/
structure IntModel where
  dim : ℕ
  vectors : List (String × IntVec)

/-- `IntModel.Similarity` (`intmodel.go` lines 59-69): `0.0` when either
word is missing, otherwise the fused integer cosine similarity. -/
def IntModel.similarityParts (m : IntModel) (s t : String) : ℚ × ℚ :=
  match m.vectors.lookup s with
  | none => (zeroParts.1, zeroParts.2)
  | some v =>
    match m.vectors.lookup t with
    | none => (zeroParts.1, zeroParts.2)
    | some u => ((intCosParts v u).1, (intCosParts v u).2)

/-- `RankSimilarity` (`floatmodel.go` lines 363-380), generic over the
store's similarity function (modelled as an arbitrary rational-valued
function, standing for the store's float64 `Similarity`): score every
candidate against the query and sort by descending similarity.
`slices.SortFunc` with comparator `cmp.Compare(b.similarity, a.similarity)`
is an unstable sort; the model uses `List.mergeSort` with the same ordering,
which produces one of the orderings the Go sort may produce, and every
property claimed of the ranking is independent of the tie order. -/
def rankSimilarity (sim : String → String → ℚ) (s : String)
    (vocab : List String) : List String :=
  (((vocab.map fun word => (word, sim s word)).mergeSort
      fun a b => decide (b.2 ≤ a.2)).map Prod.fst)

/-- `NNearestIn` (`floatmodel.go` lines 382-390): reject `n == 0` and
`n > len(vocab)` with an error, otherwise return the first `n` ranked
words. -/
def nNearestIn (sim : String → String → ℚ) (s : String)
    (vocab : List String) (n : ℕ) : Except String (List String) :=
  if n = 0 then .error "n = 0 for NNearestIn() is invalid"
  else if n > vocab.length then
    .error "n > vocabulary size for NNearestIn() is invalid"
  else .ok ((rankSimilarity sim s vocab).take n)

/-- One parsed plaintext record: the word and its already-parsed values
(`plainLineToIntModel` additionally fails on unparseable float tokens;
records here carry exact rationals, so that failure mode is out of scope
of this embedding). -/
abbrev PlainRecord := String × List ℚ

/-- The bulk-load loop of `IntModel.FromPlainFile` (`intmodel.go` lines
158-165 driving `plainLineToIntModel`, lines 74-104): for each record, if
its value count disagrees with the declared dimension the load stops and
reports failure (`false`), leaving the store as already built; otherwise the
quantized vector is inserted and the loop continues. The store insertion
`m.vectors[word] = &qv` is modelled by consing (lookup takes the most recent
binding). -/
def loadRecords (dim qshift w : ℕ) :
    List PlainRecord → List (String × IntVec) → List (String × IntVec) × Bool
  | [], st => (st, true)
  | (word, vals) :: rest, st =>
    if vals.length ≠ dim then (st, false)
    else loadRecords dim qshift w rest
      ((word, quantizeFloatVector w vals qshift) :: st)

/-- Unfused integer dot product of the raw scalars (the reference the fused
accumulator is compared against). -/
def dotZ : List ℤ → List ℤ → ℤ
  | a :: v, b :: u => a * b + dotZ v u
  | _, _ => 0

/-- Unfused integer squared magnitude of the raw scalars. -/
def magSqZ (v : List ℤ) : ℤ := (v.map fun a => a * a).sum

/-- Unfused rational dot product. -/
def dotQ : List ℚ → List ℚ → ℚ
  | a :: v, b :: u => a * b + dotQ v u
  | _, _ => 0

/-- Unfused rational squared magnitude. -/
def magSqQ (v : List ℚ) : ℚ := (v.map fun a => a * a).sum

/-- The real value a fixed-point scalar list denotes: each element divided
by `2^shift`. -/
def scaleDown (v : List ℤ) (s : ℕ) : List ℚ :=
  v.map fun e : ℤ => (e : ℚ) / 2 ^ s

/-- The real number returned by `IntVector.CosineSimilarity`:
`float64(d) / math.Sqrt(float64(mV)*float64(mU))` with no shift rescaling. -/
noncomputable def intCosVal (v u : IntVec) : ℝ :=
  partsVal (((intCosParts v u).1 : ℚ), ((intCosParts v u).2 : ℚ))

/-- Exact cosine similarity of two rational vectors (the reference formula
`dot / sqrt(mV*mU)` over the denoted real values). -/
noncomputable def ratCosVal (v u : List ℚ) : ℝ :=
  (dotQ v u : ℝ) / Real.sqrt ((magSqQ v : ℝ) * (magSqQ u : ℝ))

/-- A sample similarity function used as a concrete input when instantiating
the generic ranking theorems (the ranking layer is generic over the store's
`Similarity`). -/
def sampleSim : String → String → ℚ := fun _ t => (t.length : ℚ)

/-! ## Helper lemmas -/

/-- An integer already inside the signed `w`-bit range is unchanged by the
two's-complement wraparound. -/
theorem wrapInt_eq_self {w : ℕ} (hw : 0 < w) {z : ℤ}
    (hlo : -(2 ^ (w - 1)) ≤ z) (hhi : z < 2 ^ (w - 1)) : wrapInt w z = z := by
  unfold wrapInt
  have hsplit : (2 : ℤ) ^ w = 2 ^ (w - 1) * 2 := by
    rw [← pow_succ]
    congr 1
    omega
  have hnn : (0 : ℤ) ≤ z + 2 ^ (w - 1) := by omega
  have hlt : z + 2 ^ (w - 1) < 2 ^ w := by omega
  rw [Int.emod_eq_of_lt hnn hlt]
  omega

/-- On a nonnegative rational, truncation toward zero is the floor. -/
theorem ratTrunc_eq_floor {q : ℚ} (h : 0 ≤ q) : ratTrunc q = ⌊q⌋ := by
  have hnum : 0 ≤ q.num := Rat.num_nonneg.mpr h
  unfold ratTrunc
  rw [Int.tdiv_eq_ediv hnum (by positivity), Rat.floor_def]

/-- On a nonpositive rational, truncation toward zero is the ceiling. -/
theorem ratTrunc_eq_ceil {q : ℚ} (h : q ≤ 0) : ratTrunc q = ⌈q⌉ := by
  have h0 : 0 ≤ -q := neg_nonneg.mpr h
  have hfloor : ratTrunc (-q) = ⌊-q⌋ := ratTrunc_eq_floor h0
  have hneg : ratTrunc (-q) = -(ratTrunc q) := by
    unfold ratTrunc
    rw [Rat.neg_num, Rat.neg_den, Int.neg_tdiv]
  have hceil : ⌈q⌉ = -⌊-q⌋ := by
    rw [← Int.ceil_neg, neg_neg]
  omega

/-- Go's arithmetic right shift `e >> s` computes the floor of the exact
division `e / 2^s`. -/
theorem sar_eq_floor (e : ℤ) (s : ℕ) : sar e s = ⌊(e : ℚ) / 2 ^ s⌋ := by
  unfold sar
  rw [Int.fdiv_eq_ediv _ (by positivity)]
  rw [show ((2 : ℚ) ^ s) = ((2 ^ s : ℕ) : ℚ) by push_cast; ring]
  rw [Rat.floor_intCast_div_natCast]
  push_cast
  ring

/-! ## C1 — round-trip error bound (code bug) -/

/-- C1: the claimed round-trip bound fails on the code. With
`maxMagnitude = 1` and 8-bit elements the derived shift is `5`, the vector
`[0.5]` (all elements bounded by `1`) quantizes to `[16]`, but dequantization
right-shifts away every fractional bit and returns `[0]`: the error `1/2`
exceeds the claimed bound `2^-5`. (The doc comment of `QuantizationShift`
expects dequantization to return `element / 2^shift` with the fractional bits
kept, e.g. `[-2.875, 0.25]`; the `>>` in `DequantizeIntVector` contradicts
it, so the code, not the claim, is at fault.) -/
theorem quantize_dequantize_roundtrip_bug :
    quantizationShift 8 1 = 5 ∧
    dequantizeIntVector
        (quantizeFloatVector 8 [(1 : ℚ)/2] (quantizationShift 8 1)) = [0] ∧
    ¬ (|(1 : ℚ)/2 - 0| ≤ 1 / 2 ^ (quantizationShift 8 1)) := by
  have h5 : quantizationShift 8 1 = 5 := by decide
  have h16 : ratTrunc ((1 : ℚ)/2 * 2 ^ 5) = 16 := by norm_num [ratTrunc]
  refine ⟨h5, ?_, ?_⟩
  · rw [h5]
    simp only [quantizeFloatVector, List.map_cons, List.map_nil, h16]
    decide
  · rw [h5]
    simp only [sub_zero]
    rw [abs_of_pos (by norm_num : (0 : ℚ) < 1/2)]
    norm_num

/-! ## C2 — dequantization semantics -/

/-- C2, counterexample: the stored integer `-1` with shift `1` dequantizes to
`-1.0` (arithmetic shift, i.e. floor), not to the truncated-toward-zero
quotient `(-1) quot 2 = 0` the claim describes. -/
theorem dequantize_trunc_counterexample :
    dequantizeIntVector { scalars := [-1], shift := 1 } = [-1] ∧
    ((Int.tdiv (-1) (2 ^ 1) : ℤ) : ℚ) = 0 ∧
    dequantizeIntVector { scalars := [-1], shift := 1 }
      ≠ [((Int.tdiv (-1) (2 ^ 1) : ℤ) : ℚ)] := by
  refine ⟨by decide, by decide, by decide⟩

/-- C2, amended: `DequantizeIntVector` returns at each index the float cast
of the stored integer arithmetically right-shifted by the stored shift, which
equals the floor (rounding toward `-∞`) of `element / 2^shift`; this
coincides with the truncated integer quotient exactly for non-negative
elements. -/
theorem dequantize_is_floor_div (v : IntVec) :
    dequantizeIntVector v
      = v.scalars.map (fun e : ℤ => ((⌊(e : ℚ) / 2 ^ v.shift⌋ : ℤ) : ℚ)) ∧
    (∀ e : ℤ, 0 ≤ e → ∀ s : ℕ, sar e s = Int.tdiv e (2 ^ s)) := by
  constructor
  · unfold dequantizeIntVector
    simp only [sar_eq_floor]
  · intro e he s
    unfold sar
    rw [Int.fdiv_eq_ediv _ (by positivity), Int.tdiv_eq_ediv he (by positivity)]

/-- C2, witness for `dequantize_is_floor_div` at a concrete vector and a
concrete non-negative element. -/
theorem dequantize_is_floor_div_witness :
    dequantizeIntVector { scalars := [5, -3], shift := 1 }
      = [5, -3].map (fun e : ℤ => ((⌊(e : ℚ) / 2 ^ 1⌋ : ℤ) : ℚ)) ∧
    (0 : ℤ) ≤ 5 ∧ sar 5 1 = Int.tdiv 5 (2 ^ 1) :=
  ⟨(dequantize_is_floor_div { scalars := [5, -3], shift := 1 }).1, by decide,
    (dequantize_is_floor_div { scalars := [5, -3], shift := 1 }).2 5 (by decide) 1⟩

/-! ## C3 — quantization semantics -/

/-- C3: `QuantizeFloatVector` scales each element by `2^shift` and converts
with truncation toward zero (floor for non-negative products, ceiling for
non-positive ones — no rounding), stores the given shift, preserves length,
and applies no clamping: whenever every truncated product lies in the signed
`w`-bit range the scalars are exactly the truncated products; in particular
`[5, 1, -9, 12]` at shift `1` over 8-bit elements gives `[10, 2, -18, 24]`. -/
theorem quantize_truncates :
    (∀ (w : ℕ) (v : List ℚ) (s : ℕ),
        (quantizeFloatVector w v s).shift = s ∧
        (quantizeFloatVector w v s).scalars.length = v.length) ∧
    (∀ q : ℚ, (0 ≤ q → ratTrunc q = ⌊q⌋) ∧ (q ≤ 0 → ratTrunc q = ⌈q⌉)) ∧
    (∀ (w : ℕ) (v : List ℚ) (s : ℕ), 0 < w →
        (∀ x ∈ v, -(2 ^ (w - 1)) ≤ ratTrunc (x * 2 ^ s) ∧
          ratTrunc (x * 2 ^ s) < 2 ^ (w - 1)) →
        (quantizeFloatVector w v s).scalars
          = v.map fun x => ratTrunc (x * 2 ^ s)) ∧
    quantizeFloatVector 8 [5, 1, -9, 12] 1
      = { scalars := [10, 2, -18, 24], shift := 1 } := by
  refine ⟨?_, ?_, ?_, ?_⟩
  · intro w v s
    exact ⟨rfl, by simp [quantizeFloatVector]⟩
  · intro q
    exact ⟨fun h => ratTrunc_eq_floor h, fun h => ratTrunc_eq_ceil h⟩
  · intro w v s hw h
    unfold quantizeFloatVector
    simp only
    apply List.map_congr_left
    intro x hx
    exact wrapInt_eq_self hw (h x hx).1 (h x hx).2
  · simp [quantizeFloatVector, wrapInt]
    norm_num [ratTrunc]

/-- C3, witness discharging the hypotheses of `quantize_truncates` at
concrete inputs. -/
theorem quantize_truncates_witness :
    ((0 : ℚ) ≤ 5 ∧ ratTrunc 5 = ⌊(5 : ℚ)⌋) ∧
    (quantizeFloatVector 8 [5, 1, -9, 12] 1).scalars
      = [5, 1, -9, 12].map fun x => ratTrunc (x * 2 ^ 1) :=
  ⟨⟨by norm_num, (quantize_truncates.2.1 5).1 (by norm_num)⟩,
    quantize_truncates.2.2.1 8 [5, 1, -9, 12] 1 (by norm_num)
      (by intro x hx; fin_cases hx <;> constructor <;> norm_num [ratTrunc])⟩

/-! ## C4 — shift derivation -/

/-- The fuel-based `natLog2` computes the floor of `log2`: once the fuel
dominates `n ≥ 1`, the result `l` satisfies `2^l ≤ n < 2^(l+1)`. -/
theorem natLog2_spec (fuel : ℕ) : ∀ n : ℕ, n ≤ fuel → 1 ≤ n →
    2 ^ natLog2 fuel n ≤ n ∧ n < 2 ^ (natLog2 fuel n + 1) := by
  induction fuel with
  | zero => intro n h1 h2; omega
  | succ fuel ih =>
    intro n hle h1
    unfold natLog2
    by_cases hn : n ≤ 1
    · simp only [hn, if_true]
      constructor <;> simp <;> omega
    · simp only [hn, if_false]
      have hm1 : 1 ≤ n / 2 := by omega
      have hmf : n / 2 ≤ fuel := by omega
      obtain ⟨ha, hb⟩ := ih (n / 2) hmf hm1
      have e1 : 2 ^ (natLog2 fuel (n / 2) + 1)
          = 2 * 2 ^ natLog2 fuel (n / 2) := by ring
      have e2 : 2 ^ (natLog2 fuel (n / 2) + 1 + 1)
          = 2 * 2 ^ (natLog2 fuel (n / 2) + 1) := by ring
      omega

/-- `natCeilLog2 n` is the least `k` with `n ≤ 2^k`. -/
theorem natCeilLog2_spec (n : ℕ) :
    n ≤ 2 ^ natCeilLog2 n ∧ ∀ k : ℕ, n ≤ 2 ^ k → natCeilLog2 n ≤ k := by
  unfold natCeilLog2
  by_cases hn : n ≤ 1
  · simp only [hn, if_true]
    exact ⟨by simpa using hn, fun k _ => Nat.zero_le k⟩
  · simp only [hn, if_false]
    have h1 : 1 ≤ n - 1 := by omega
    obtain ⟨ha, hb⟩ := natLog2_spec (n - 1) (n - 1) le_rfl h1
    refine ⟨by omega, ?_⟩
    intro k hk
    by_contra hc
    push_neg at hc
    have : (2 : ℕ) ^ k ≤ 2 ^ natLog2 (n - 1) (n - 1) :=
      Nat.pow_le_pow_right (by norm_num) (by omega)
    omega

/-- For `m ≥ 1`, `ceilLog2 m` is non-negative, bounds `m` from above by
`2^(ceilLog2 m)`, and is the least natural exponent doing so. -/
theorem ceilLog2_spec (m : ℚ) (h : 1 ≤ m) :
    0 ≤ ceilLog2 m ∧ m ≤ 2 ^ (ceilLog2 m).toNat ∧
    ∀ k : ℕ, m ≤ 2 ^ k → ceilLog2 m ≤ (k : ℤ) := by
  unfold ceilLog2
  simp only [h, if_true]
  obtain ⟨ha, hmin⟩ := natCeilLog2_spec ⌈m⌉₊
  refine ⟨by positivity, ?_, ?_⟩
  · rw [Int.toNat_natCast]
    calc m ≤ (⌈m⌉₊ : ℚ) := Nat.le_ceil m
    _ ≤ ((2 ^ natCeilLog2 ⌈m⌉₊ : ℕ) : ℚ) := by exact_mod_cast ha
    _ = 2 ^ natCeilLog2 ⌈m⌉₊ := by push_cast; ring
  · intro k hk
    have hck : ⌈m⌉₊ ≤ 2 ^ k := by
      rw [Nat.ceil_le]
      calc m ≤ 2 ^ k := hk
      _ = ((2 ^ k : ℕ) : ℚ) := by push_cast; ring
    exact_mod_cast hmin k hck

/-- C4, counterexample: at `maxMagnitude = 1024` over 8-bit elements the
integer formula gives `8 - 10 - 3 = -5`, but the `uint8` arithmetic in
`QuantizationShift` wraps around and the function returns `251`. -/
theorem quantizationShift_formula_counterexample :
    ¬ ((quantizationShift 8 1024 : ℤ) = (8 : ℤ) - ceilLog2 1024 - 3) := by
  decide

/-- C4, amended: the derived shift is
`(elementWidthBits - ⌈log2 maxMagnitude⌉ - 3) mod 2^8` (`uint8` wraparound
arithmetic); whenever the un-wrapped value lies in `[0, 256)` it equals the
claimed formula exactly, with `⌈log2 m⌉` characterized as the least exponent
`k` with `m ≤ 2^k`; in particular the derived shift for an 8-bit width and
`maxMagnitude = 3.0` is exactly `3`. -/
theorem quantizationShift_spec (w : ℕ) (m : ℚ) (h1 : 1 ≤ m)
    (h0 : 0 ≤ (w : ℤ) - ceilLog2 m - 3)
    (h256 : (w : ℤ) - ceilLog2 m - 3 < 256) :
    (quantizationShift w m : ℤ) = (w : ℤ) - ceilLog2 m - 3 ∧
    m ≤ 2 ^ (ceilLog2 m).toNat ∧
    (∀ k : ℕ, m ≤ 2 ^ k → ceilLog2 m ≤ (k : ℤ)) ∧
    quantizationShift 8 3 = 3 := by
  obtain ⟨hnn, ha, hmin⟩ := ceilLog2_spec m h1
  refine ⟨?_, ha, hmin, by decide⟩
  unfold quantizationShift
  rw [Int.emod_eq_of_lt h0 h256, Int.toNat_of_nonneg h0]

/-- C4, witness discharging the hypotheses of `quantizationShift_spec` at
the documented worked example (8-bit width, bound 3.0). -/
theorem quantizationShift_spec_witness :
    ((1 : ℚ) ≤ 3 ∧ 0 ≤ (8 : ℤ) - ceilLog2 3 - 3 ∧
      (8 : ℤ) - ceilLog2 3 - 3 < 256) ∧
    (quantizationShift 8 3 : ℤ) = (8 : ℤ) - ceilLog2 3 - 3 :=
  ⟨⟨by decide, by decide, by decide⟩,
    (quantizationShift_spec 8 3 (by decide) (by decide) (by decide)).1⟩

/-! ## C10 — Add/Subtract shift and length invariants -/

/-- C10, counterexample: when the argument is shorter than the receiver the
loop of `Add`/`Subtract` indexes `u.scalars` out of range and panics, so no
vector (of the receiver's length or any other) is returned. -/
theorem intvec_add_shorter_panics :
    IntVec.add 8 { scalars := [0, 0], shift := 0 } { scalars := [0], shift := 1 }
      = none ∧
    IntVec.sub 8 { scalars := [0, 0], shift := 0 } { scalars := [0], shift := 1 }
      = none := by
  decide

/-- C10, amended: whenever the argument `u` is at least as long as the
receiver `v` (otherwise the unchecked loop panics), `Add` and `Subtract`
return a vector whose shift is the receiver's shift and whose length is the
receiver's length, and the argument's shift field never influences the
result. -/
theorem intvec_add_sub_receiver_shift (w : ℕ) (v u : IntVec)
    (h : v.scalars.length ≤ u.scalars.length) :
    (∃ r, IntVec.add w v u = some r ∧ r.shift = v.shift ∧
      r.scalars.length = v.scalars.length) ∧
    (∃ r, IntVec.sub w v u = some r ∧ r.shift = v.shift ∧
      r.scalars.length = v.scalars.length) ∧
    (∀ s : ℕ,
      IntVec.add w v { scalars := u.scalars, shift := s } = IntVec.add w v u ∧
      IntVec.sub w v { scalars := u.scalars, shift := s } = IntVec.sub w v u) := by
  have hadd : IntVec.add w v u = some
      { scalars := (v.scalars.zip u.scalars).map fun p => wrapInt w (p.1 + p.2)
        shift := v.shift } := by
    simp [IntVec.add, h]
  have hsub : IntVec.sub w v u = some
      { scalars := (v.scalars.zip u.scalars).map fun p => wrapInt w (p.1 - p.2)
        shift := v.shift } := by
    simp [IntVec.sub, h]
  refine ⟨⟨_, hadd, rfl, ?_⟩, ⟨_, hsub, rfl, ?_⟩, ?_⟩
  · simp [Nat.min_eq_left h]
  · simp [Nat.min_eq_left h]
  · intro s
    exact ⟨rfl, rfl⟩

/-- C10, witness: adding and subtracting two concrete vectors of differing
shift fields keeps the receiver's shift and length. -/
theorem intvec_add_sub_receiver_shift_witness :
    (({ scalars := [1, 2], shift := 3 } : IntVec)).scalars.length
      ≤ (({ scalars := [5, 6], shift := 9 } : IntVec)).scalars.length ∧
    (∃ r, IntVec.add 8 { scalars := [1, 2], shift := 3 }
        { scalars := [5, 6], shift := 9 } = some r ∧
      r.shift = 3 ∧ r.scalars.length = 2) :=
  ⟨by decide,
    (intvec_add_sub_receiver_shift 8 { scalars := [1, 2], shift := 3 }
      { scalars := [5, 6], shift := 9 } (by decide)).1⟩

/-! ## C5 — Similarity on absent words -/

/-- C5: for both store flavours, `Similarity` returns exactly `0.0` whenever
either word is absent (including both absent), and otherwise delegates to
the fused cosine similarity of the stored vectors. -/
theorem similarity_absent_zero (s t : String) :
    (∀ m : FloatModel,
      (m.vectors.lookup s = none ∨ m.vectors.lookup t = none) →
      m.similarityParts s t = zeroParts) ∧
    (∀ (m : FloatModel) (v u : List ℚ),
      m.vectors.lookup s = some v → m.vectors.lookup t = some u →
      m.similarityParts s t = floatCosParts v u) ∧
    (∀ m : IntModel,
      (m.vectors.lookup s = none ∨ m.vectors.lookup t = none) →
      m.similarityParts s t = zeroParts) ∧
    (∀ (m : IntModel) (v u : IntVec),
      m.vectors.lookup s = some v → m.vectors.lookup t = some u →
      m.similarityParts s t
        = (((intCosParts v u).1 : ℚ), ((intCosParts v u).2 : ℚ))) ∧
    partsVal zeroParts = 0 := by
  refine ⟨?_, ?_, ?_, ?_, ?_⟩
  · intro m h
    rcases h with h | h
    · simp [FloatModel.similarityParts, h]
    · cases hs : m.vectors.lookup s with
      | none => simp [FloatModel.similarityParts, hs]
      | some v => simp [FloatModel.similarityParts, hs, h]
  · intro m v u hs ht
    simp [FloatModel.similarityParts, hs, ht]
  · intro m h
    rcases h with h | h
    · simp [IntModel.similarityParts, h, zeroParts]
    · cases hs : m.vectors.lookup s with
      | none => simp [IntModel.similarityParts, hs, zeroParts]
      | some v => simp [IntModel.similarityParts, hs, h, zeroParts]
  · intro m v u hs ht
    simp [IntModel.similarityParts, hs, ht]
  · simp [partsVal, zeroParts]

/-- C5, witness: a concrete two-word store evaluated at an absent pair and a
present pair. -/
theorem similarity_absent_zero_witness :
    (FloatModel.mk 2 [("cat", [1, 0]), ("dog", [0, 1])]).vectors.lookup "bird"
      = none ∧
    (FloatModel.mk 2 [("cat", [1, 0]), ("dog", [0, 1])]).similarityParts
      "bird" "cat" = zeroParts ∧
    (FloatModel.mk 2 [("cat", [1, 0]), ("dog", [0, 1])]).similarityParts
      "cat" "dog" = floatCosParts [1, 0] [0, 1] :=
  ⟨by decide,
    (similarity_absent_zero "bird" "cat").1
      (FloatModel.mk 2 [("cat", [1, 0]), ("dog", [0, 1])])
      (Or.inl (by decide)),
    (similarity_absent_zero "cat" "dog").2.1
      (FloatModel.mk 2 [("cat", [1, 0]), ("dog", [0, 1])])
      [1, 0] [0, 1] (by decide) (by decide)⟩

/-! ## C9 — zero-vector cosine similarity is NaN -/

/-- If every element of the left operand is zero, the fused loop accumulates
a zero dot product and a zero left squared magnitude. -/
theorem floatCosAcc_left_zero :
    ∀ (v u : List ℚ), (∀ x ∈ v, x = 0) →
      (floatCosAcc v u).1 = 0 ∧ (floatCosAcc v u).2.1 = 0 := by
  intro v
  induction v with
  | nil => intro u _; cases u <;> simp [floatCosAcc]
  | cons a v ih =>
    intro u h
    cases u with
    | nil => simp [floatCosAcc]
    | cons b u =>
      have ha : a = 0 := h a (by simp)
      have hv := ih u fun x hx => h x (by simp [hx])
      simp [floatCosAcc, ha, hv.1, hv.2]

/-- If every element of the right operand is zero, the fused loop accumulates
a zero dot product and a zero right squared magnitude. -/
theorem floatCosAcc_right_zero :
    ∀ (v u : List ℚ), (∀ x ∈ u, x = 0) →
      (floatCosAcc v u).1 = 0 ∧ (floatCosAcc v u).2.2 = 0 := by
  intro v
  induction v with
  | nil => intro u _; cases u <;> simp [floatCosAcc]
  | cons a v ih =>
    intro u h
    cases u with
    | nil => simp [floatCosAcc]
    | cons b u =>
      have hb : b = 0 := h b (by simp)
      have hv := ih u fun x hx => h x (by simp [hx])
      simp [floatCosAcc, hb, hv.1, hv.2]

/-- C9: when either operand of the fused float `CosineSimilarity` is an
all-zero vector, the accumulated numerator and the radicand `mV*mU` are both
zero, so the unguarded float division `0 / sqrt 0 = 0/0` produces NaN (the
code has no special case for this input). -/
theorem cosine_zero_vector_nan (v u : List ℚ) (hlen : v.length = u.length)
    (hz : (∀ x ∈ v, x = 0) ∨ (∀ x ∈ u, x = 0)) :
    (floatCosParts v u).1 = 0 ∧ (floatCosParts v u).2 = 0 ∧
    divSqrtIsNaN (floatCosParts v u).1 (floatCosParts v u).2 = true := by
  have hparts : (floatCosParts v u).1 = 0 ∧ (floatCosParts v u).2 = 0 := by
    rcases hz with h | h
    · obtain ⟨h1, h2⟩ := floatCosAcc_left_zero v u h
      exact ⟨h1, by simp [floatCosParts, h2]⟩
    · obtain ⟨h1, h2⟩ := floatCosAcc_right_zero v u h
      exact ⟨h1, by simp [floatCosParts, h2]⟩
  exact ⟨hparts.1, hparts.2, by simp [divSqrtIsNaN, hparts.1, hparts.2]⟩

/-- C9, witness: the zero vector against `[3, 4]`. -/
theorem cosine_zero_vector_nan_witness :
    ([0, 0] : List ℚ).length = ([3, 4] : List ℚ).length ∧
    (∀ x ∈ ([0, 0] : List ℚ), x = 0) ∧
    divSqrtIsNaN (floatCosParts [0, 0] [3, 4]).1
      (floatCosParts [0, 0] [3, 4]).2 = true :=
  ⟨rfl, by decide,
    (cosine_zero_vector_nan [0, 0] [3, 4] rfl (Or.inl (by decide))).2.2⟩

/-! ## C7 — fused integer cosine similarity and shift cancellation -/

/-- The fused integer accumulator equals the three unfused sums whenever the
operands have equal length. -/
theorem intCosAcc_eq : ∀ (v u : List ℤ), v.length = u.length →
    intCosAcc v u = (dotZ v u, magSqZ v, magSqZ u) := by
  intro v
  induction v with
  | nil =>
    intro u hlen
    cases u with
    | nil => simp [intCosAcc, dotZ, magSqZ]
    | cons b u => simp at hlen
  | cons a v ih =>
    intro u hlen
    cases u with
    | nil => simp at hlen
    | cons b u =>
      have h := ih u (by simpa using hlen)
      simp [intCosAcc, dotZ, magSqZ, h]

/-- Scaling both operands by `2^-s` scales the dot product by `2^-2s`. -/
theorem dotQ_scaleDown : ∀ (v u : List ℤ) (s : ℕ),
    dotQ (scaleDown v s) (scaleDown u s) = (dotZ v u : ℚ) / ((2 : ℚ) ^ s) ^ 2 := by
  intro v
  induction v with
  | nil =>
    intro u s
    cases u <;> simp [scaleDown, dotQ, dotZ]
  | cons a v ih =>
    intro u s
    cases u with
    | nil => simp [scaleDown, dotQ, dotZ]
    | cons b u =>
      have h := ih u s
      simp only [scaleDown, List.map_cons, dotQ, dotZ] at h ⊢
      rw [h]
      push_cast
      ring

/-- Scaling a vector by `2^-s` scales its squared magnitude by `2^-2s`. -/
theorem magSqQ_scaleDown : ∀ (v : List ℤ) (s : ℕ),
    magSqQ (scaleDown v s) = (magSqZ v : ℚ) / ((2 : ℚ) ^ s) ^ 2 := by
  intro v
  induction v with
  | nil => intro s; simp [scaleDown, magSqQ, magSqZ]
  | cons a v ih =>
    intro s
    have h := ih s
    simp only [scaleDown, magSqQ, magSqZ, List.map_cons, List.sum_cons] at h ⊢
    rw [h]
    push_cast
    ring

/-- A squared-magnitude accumulator is non-negative. -/
theorem magSqZ_nonneg : ∀ v : List ℤ, 0 ≤ magSqZ v := by
  intro v
  induction v with
  | nil => simp [magSqZ]
  | cons a v ih =>
    simp only [magSqZ, List.map_cons, List.sum_cons] at ih ⊢
    have := mul_self_nonneg a
    linarith

/-- Dividing numerator and both magnitude factors by the same positive
square leaves `d / sqrt(mV*mU)` unchanged: the algebraic cancellation behind
the missing rescale. -/
theorem div_sqrt_scale (d mV mU c : ℝ) (hc : 0 < c) (hV : 0 ≤ mV)
    (hU : 0 ≤ mU) :
    (d / c ^ 2) / Real.sqrt ((mV / c ^ 2) * (mU / c ^ 2))
      = d / Real.sqrt (mV * mU) := by
  have hc2 : (0 : ℝ) < c ^ 2 := by positivity
  have h1 : (mV / c ^ 2) * (mU / c ^ 2) = (mV * mU) / (c ^ 2) ^ 2 := by ring
  rw [h1, Real.sqrt_div (by positivity), Real.sqrt_sq hc2.le]
  rw [div_div_eq_mul_div, div_mul_cancel₀ _ (ne_of_gt hc2)]

/-- C7: for equal-length fixed-point vectors sharing one shift, the fused
`IntVector.CosineSimilarity` is exactly the integer dot accumulator divided
by the square root of the product of the two squared-magnitude accumulators
(no rescaling); the exact cosine of the denoted real vectors (each scalar
divided by `2^shift`) coincides with it — the shift cancels — and the result
is independent of the shared shift value. -/
theorem int_cosine_shift_cancels (v u : List ℤ) (s : ℕ)
    (hlen : v.length = u.length) :
    intCosVal { scalars := v, shift := s } { scalars := u, shift := s }
      = (dotZ v u : ℝ) / Real.sqrt ((magSqZ v : ℝ) * (magSqZ u : ℝ)) ∧
    ratCosVal (scaleDown v s) (scaleDown u s)
      = intCosVal { scalars := v, shift := s } { scalars := u, shift := s } ∧
    ∀ t : ℕ,
      intCosVal { scalars := v, shift := t } { scalars := u, shift := t }
        = intCosVal { scalars := v, shift := s } { scalars := u, shift := s } := by
  have hacc : intCosAcc v u = (dotZ v u, magSqZ v, magSqZ u) :=
    intCosAcc_eq v u hlen
  have h1 : intCosVal { scalars := v, shift := s } { scalars := u, shift := s }
      = (dotZ v u : ℝ) / Real.sqrt ((magSqZ v : ℝ) * (magSqZ u : ℝ)) := by
    simp only [intCosVal, partsVal, intCosParts, hacc]
    push_cast
    ring_nf
  refine ⟨h1, ?_, fun t => rfl⟩
  unfold ratCosVal
  rw [dotQ_scaleDown, magSqQ_scaleDown, magSqQ_scaleDown, h1]
  push_cast
  exact div_sqrt_scale _ _ _ _ (by positivity)
    (by exact_mod_cast magSqZ_nonneg v) (by exact_mod_cast magSqZ_nonneg u)

/-- C7, witness: the fused similarity of `[3,4]` and `[-3,-6]` at shift `5`
equals the accumulator ratio. -/
theorem int_cosine_shift_cancels_witness :
    ([3, 4] : List ℤ).length = ([-3, -6] : List ℤ).length ∧
    intCosVal { scalars := [3, 4], shift := 5 }
        { scalars := [-3, -6], shift := 5 }
      = (dotZ [3, 4] [-3, -6] : ℝ)
        / Real.sqrt ((magSqZ [3, 4] : ℝ) * (magSqZ [-3, -6] : ℝ)) :=
  ⟨rfl, (int_cosine_shift_cancels [3, 4] [-3, -6] 5 rfl).1⟩

/-! ## C6 — NNearestIn and similarity ranking -/

/-- The ranked list is a permutation of the candidate vocabulary. -/
theorem rankSimilarity_perm (sim : String → String → ℚ) (s : String)
    (vocab : List String) : (rankSimilarity sim s vocab).Perm vocab := by
  unfold rankSimilarity
  have h1 := List.mergeSort_perm (vocab.map fun word => (word, sim s word))
    fun a b => decide (b.2 ≤ a.2)
  have h2 := h1.map Prod.fst
  rw [List.map_map] at h2
  simpa [Function.comp_def] using h2

/-- The ranked list is ordered by non-increasing similarity to the query. -/
theorem rankSimilarity_sorted (sim : String → String → ℚ) (s : String)
    (vocab : List String) :
    (rankSimilarity sim s vocab).Pairwise fun a b => sim s b ≤ sim s a := by
  unfold rankSimilarity
  rw [List.pairwise_map]
  have htrans : ∀ a b c : String × ℚ,
      (fun a b : String × ℚ => decide (b.2 ≤ a.2)) a b →
      (fun a b : String × ℚ => decide (b.2 ≤ a.2)) b c →
      (fun a b : String × ℚ => decide (b.2 ≤ a.2)) a c := by
    intro a b c hab hbc
    simp only [decide_eq_true_eq] at hab hbc ⊢
    exact le_trans hbc hab
  have htotal : ∀ a b : String × ℚ,
      ((fun a b : String × ℚ => decide (b.2 ≤ a.2)) a b
        || (fun a b : String × ℚ => decide (b.2 ≤ a.2)) b a) = true := by
    intro a b
    rcases le_total a.2 b.2 with h | h <;> simp [h]
  have hp := List.sorted_mergeSort htrans htotal
    (vocab.map fun word => (word, sim s word))
  have hmem : ∀ p ∈ (vocab.map fun word => (word, sim s word)).mergeSort
      (fun a b => decide (b.2 ≤ a.2)), p.2 = sim s p.1 := by
    intro p hp'
    have hm : p ∈ vocab.map fun word => (word, sim s word) :=
      ((List.mergeSort_perm _ _).mem_iff).mp hp'
    obtain ⟨w, hw, rfl⟩ := List.mem_map.mp hm
    rfl
  refine List.Pairwise.imp_of_mem ?_ hp
  intro a b ha hb hab
  have h1 := hmem a ha
  have h2 := hmem b hb
  simp only [decide_eq_true_eq] at hab
  rw [← h1, ← h2]
  exact hab

/-- C6: `NNearestIn` fails exactly when `n = 0` or `n` exceeds the
vocabulary size; otherwise it returns the first `n` entries of
`RankSimilarity` (so exactly `n` words), and the ranking is a permutation of
the vocabulary ordered by non-increasing similarity to the query. -/
theorem nNearestIn_spec (sim : String → String → ℚ) (s : String)
    (vocab : List String) (n : ℕ) :
    ((∃ e, nNearestIn sim s vocab n = .error e) ↔
      (n = 0 ∨ n > vocab.length)) ∧
    (n ≠ 0 → n ≤ vocab.length →
      nNearestIn sim s vocab n = .ok ((rankSimilarity sim s vocab).take n) ∧
      ∃ res, nNearestIn sim s vocab n = .ok res ∧ res.length = n) ∧
    (rankSimilarity sim s vocab).Perm vocab ∧
    (rankSimilarity sim s vocab).Pairwise fun a b => sim s b ≤ sim s a := by
  refine ⟨?_, ?_, rankSimilarity_perm sim s vocab,
    rankSimilarity_sorted sim s vocab⟩
  · by_cases h0 : n = 0
    · simp [nNearestIn, h0]
    · by_cases hlen : n > vocab.length
      · simp [nNearestIn, h0, hlen]
      · simp [nNearestIn, h0, hlen]
  · intro h0 hle
    have hgt : ¬ n > vocab.length := not_lt.mpr hle
    have hok : nNearestIn sim s vocab n
        = .ok ((rankSimilarity sim s vocab).take n) := by
      simp [nNearestIn, h0, hgt]
    refine ⟨hok, _, hok, ?_⟩
    rw [List.length_take]
    have := (rankSimilarity_perm sim s vocab).length_eq
    omega

/-- C6, witness: the documented six-word vocabulary with `n = 3` succeeds
with exactly three words, and `n = 0` and `n = 7` fail. -/
theorem nNearestIn_spec_witness :
    (3 ≠ 0 ∧
      3 ≤ ["dog", "apple", "lincoln", "whisker", "road", "cheetah"].length) ∧
    (∃ res, nNearestIn sampleSim "cat"
        ["dog", "apple", "lincoln", "whisker", "road", "cheetah"] 3
      = .ok res ∧ res.length = 3) ∧
    (∃ e, nNearestIn sampleSim "cat"
        ["dog", "apple", "lincoln", "whisker", "road", "cheetah"] 0
      = .error e) ∧
    (∃ e, nNearestIn sampleSim "cat"
        ["dog", "apple", "lincoln", "whisker", "road", "cheetah"] 7
      = .error e) :=
  ⟨⟨by decide, by decide⟩,
    ((nNearestIn_spec sampleSim "cat"
        ["dog", "apple", "lincoln", "whisker", "road", "cheetah"] 3).2.1
      (by decide) (by decide)).2,
    (nNearestIn_spec sampleSim "cat"
        ["dog", "apple", "lincoln", "whisker", "road", "cheetah"] 0).1.mpr
      (Or.inl rfl),
    (nNearestIn_spec sampleSim "cat"
        ["dog", "apple", "lincoln", "whisker", "road", "cheetah"] 7).1.mpr
      (Or.inr (by decide))⟩

/-! ## C8 — bulk load aborts on dimension mismatch without rollback -/

/-- C8: when a record whose value count disagrees with the declared
dimension appears in a bulk load, the load reports failure, the store equals
exactly the store produced by loading only the records before the offending
one (so the offending record and everything after it are never inserted),
and loading those earlier records alone succeeds — nothing is rolled back. -/
theorem loadRecords_abort (dim qshift w : ℕ) :
    ∀ (pre : List PlainRecord) (st : List (String × IntVec))
      (bad : PlainRecord) (post : List PlainRecord),
      (∀ r ∈ pre, (r.2 : List ℚ).length = dim) → bad.2.length ≠ dim →
      loadRecords dim qshift w (pre ++ bad :: post) st
        = ((loadRecords dim qshift w pre st).1, false) ∧
      (loadRecords dim qshift w pre st).2 = true ∧
      (loadRecords dim qshift w pre st).1
        = (pre.map fun r => (r.1, quantizeFloatVector w r.2 qshift)).reverse
          ++ st := by
  intro pre
  induction pre with
  | nil =>
    intro st bad hpost hpre hbad
    obtain ⟨bw, bvals⟩ := bad
    simp only [List.nil_append, List.cons_append] at *
    refine ⟨?_, rfl, by simp [loadRecords]⟩
    simp [loadRecords, hbad]
  | cons r pre ih =>
    intro st bad post hpre hbad
    obtain ⟨rw', rvals⟩ := r
    have hr : rvals.length = dim := hpre (rw', rvals) (by simp)
    have hpre' : ∀ x ∈ pre, (x.2 : List ℚ).length = dim := fun x hx =>
      hpre x (by simp [hx])
    obtain ⟨h1, h2, h3⟩ := ih
      ((rw', quantizeFloatVector w rvals qshift) :: st) bad post hpre' hbad
    refine ⟨?_, ?_, ?_⟩
    · simpa [loadRecords, hr] using h1
    · simpa [loadRecords, hr] using h2
    · rw [show loadRecords dim qshift w ((rw', rvals) :: pre) st
          = loadRecords dim qshift w pre
            ((rw', quantizeFloatVector w rvals qshift) :: st) by
        simp [loadRecords, hr]]
      rw [h3]
      simp

/-- C8, witness: a three-record load whose middle record has the wrong value
count keeps the first record, reports failure, and never inserts the bad
record or its successor. -/
theorem loadRecords_abort_witness :
    ((∀ r ∈ ([("a", [1, 2])] : List PlainRecord), (r.2 : List ℚ).length = 2) ∧
      (("b", [3]) : PlainRecord).2.length ≠ 2) ∧
    loadRecords 2 1 8 [("a", [1, 2]), ("b", [3]), ("c", [4, 5])] []
      = ((loadRecords 2 1 8 [("a", [1, 2])] []).1, false) ∧
    (loadRecords 2 1 8 [("a", [1, 2])] []).2 = true ∧
    (loadRecords 2 1 8 [("a", [1, 2])] []).1
      = (([("a", [1, 2])] : List PlainRecord).map
          fun r => (r.1, quantizeFloatVector 8 r.2 1)).reverse ++ [] :=
  ⟨⟨by decide, by decide⟩,
    loadRecords_abort 2 1 8 [("a", [1, 2])] [] ("b", [3]) [("c", [4, 5])]
      (by decide) (by decide)⟩

end Gowe

